import Mathlib

/-!
Verification of the rustywind class-sorting tool against its specification.

The caller layer (`main`, `run_on_file_paths`, `write_to_file`,
`print_file_name`, `print_file_contents`, `get_file_name`) is embedded from
`src/main.rs`.  The class-sorting core (`has_classes`, `find_spans`,
`sort_file_contents`, the tokenizer, order table, sorter and reassembler) lives
in the `rustywind` library crate, which is not part of the sources at hand;
those definitions are modelled from the specification, as marked on each one.

File contents are embedded as `List Char`; paths as `List String` (one entry
per path component); the observable behaviour of the caller layer as an
explicit list of effects (reads, writes, stdout/stderr lines).
-/

/-! ## Generic list helpers -/

/-- Boolean test that `p` is an initial segment of `s`. -/
def startsWith : List Char → List Char → Bool
  | [], _ => true
  | _ :: _, [] => false
  | a :: as, b :: bs => a == b && startsWith as bs

/-! ## Extractor (modelled from the spec, section 4.3) -/

/-- Modelled from the spec: the delimiter opening a class-bearing span.  The
spec leaves the exact attribute grammar as a design choice and names
`class="…"` as the canonical case; we model that canonical double-quoted
pattern.  The `rustywind` library's regex-based scanner is not among the
sources at hand. -/
def delim : List Char := ['c', 'l', 'a', 's', 's', '=', '"']

/-- A piece of file content: ordinary text, or the inner text of one
class-bearing span (its `class="` and `"` delimiters are kept implicit and
restored by `render`). -/
inductive Chunk
  | text (s : List Char)
  | span (inner : List Char)
deriving DecidableEq

/-- Prepend one ordinary character to a chunk list, merging it into a leading
text chunk when there is one. -/
def consText (c : Char) : List Chunk → List Chunk
  | Chunk.text t :: cs => Chunk.text (c :: t) :: cs
  | cs => Chunk.text [c] :: cs

/-- Modelled from the spec: fuel-indexed scanner for class-bearing spans.  At
each position it either recognizes `class="` followed by a closing quote
(emitting the span's inner text), or treats the character as ordinary text.
A `class="` with no closing quote anywhere after it is malformed and is left
as plain text (spec section 4.5: malformed input degrades to leave-unchanged).
The fuel argument only makes the recursion structural; `scan` below always
supplies enough. -/
def scanF : Nat → List Char → List Chunk
  | 0, s => [Chunk.text s]
  | _ + 1, [] => []
  | fuel + 1, c :: rest =>
    if startsWith delim (c :: rest) then
      if (((c :: rest).drop 7).dropWhile (fun d => d != '"')).isEmpty then
        [Chunk.text (c :: rest)]
      else
        Chunk.span (((c :: rest).drop 7).takeWhile (fun d => d != '"')) ::
          scanF fuel (((c :: rest).drop 7).dropWhile (fun d => d != '"')).tail
    else
      consText c (scanF fuel rest)

/-- Modelled from the spec: scan whole file content into alternating text
chunks and class-bearing spans. -/
def scan (s : List Char) : List Chunk := scanF (s.length + 1) s

/-- Render one chunk back to bytes. -/
def renderChunk : Chunk → List Char
  | Chunk.text t => t
  | Chunk.span inner => delim ++ inner ++ ['"']

/-- Modelled from the spec: the Reassembler's byte-level view — concatenate
the chunks back into file content. -/
def render : List Chunk → List Char
  | [] => []
  | c :: cs => renderChunk c ++ render cs

/-- The inner texts of the spans of a chunk list, left to right. -/
def spanInners : List Chunk → List (List Char)
  | [] => []
  | Chunk.text _ :: cs => spanInners cs
  | Chunk.span i :: cs => i :: spanInners cs

/-- Modelled from the spec: `find_spans` yields the class-bearing spans of the
content (we record each span by its inner text, in file order). -/
def find_spans (s : List Char) : List (List Char) := spanInners (scan s)

/-- Modelled from the spec: cheap existence probe for a class-bearing span —
a `class="` that is followed by a closing quote. -/
def has_classes : List Char → Bool
  | [] => false
  | c :: rest =>
    (startsWith delim (c :: rest) &&
      !(((c :: rest).drop 7).dropWhile (fun d => d != '"')).isEmpty)
    || has_classes rest

/-- The bytes of a chunk list that lie outside the spans' inner texts (plain
text plus the span delimiters). -/
def outsideBytes : List Chunk → List Char
  | [] => []
  | Chunk.text t :: cs => t ++ outsideBytes cs
  | Chunk.span _ :: cs => delim ++ '"' :: outsideBytes cs

/-! ## Tokenizer (modelled from the spec, section 4.2) -/

/-- Modelled from the spec: fuel-indexed whitespace splitter.  Splits span
inner text on runs of whitespace; the whitespace runs themselves are not
preserved.  The fuel argument only makes the recursion structural. -/
def tokenizeF : Nat → List Char → List (List Char)
  | 0, _ => []
  | _ + 1, [] => []
  | fuel + 1, c :: rest =>
    if c.isWhitespace then tokenizeF fuel rest
    else (c :: rest.takeWhile (fun d => !d.isWhitespace)) ::
      tokenizeF fuel (rest.dropWhile (fun d => !d.isWhitespace))

/-- Modelled from the spec: split a span's inner text into raw class tokens,
in their original left-to-right order. -/
def tokenize (s : List Char) : List (List Char) := tokenizeF (s.length + 1) s

/-- Modelled from the spec: the Reassembler re-joins tokens with a single
canonical space; the empty token sequence yields the empty string. -/
def joinSpace : List (List Char) → List Char
  | [] => []
  | [t] => t
  | t :: ts => t ++ ' ' :: joinSpace ts

/-! ## Order Table and Ranker (modelled from the spec, sections 3 and 4.1) -/

/-- Modelled from the spec: the static canonical ordering table (class name to
rank, rank given by list position).  The real table is a large process-wide
constant in the library crate; any fixed table realizes the contract, and this
one covers the spec's example scenarios. -/
def orderTable : List (List Char) :=
  ["flex".toList, "text-center".toList, "pt-2".toList, "p-4".toList]

/-- Modelled from the spec: drop recognized variant prefixes (everything up to
the last `:`), keeping the base utility name. -/
def lastSegment (t : List Char) : List Char :=
  t.foldl (fun acc c => if c == ':' then [] else acc ++ [c]) []

/-- Modelled from the spec: `rank_of` resolves a raw token to its rank by
stripping variant prefixes and any bracketed arbitrary-value suffix and
looking the base name up in the Order Table; tokens with no match get the
sentinel rank `orderTable.length`, which sorts after every ranked token. -/
def rank_of (t : List Char) : Nat :=
  match orderTable.findIdx? (fun p => p == (lastSegment t).takeWhile (fun d => d != '[')) with
  | some i => i
  | none => orderTable.length

/-- Rank comparison used by the stable sort. -/
def rankLe (a b : List Char) : Prop := rank_of a ≤ rank_of b

instance : DecidableRel rankLe := fun a b => Nat.decLe (rank_of a) (rank_of b)

instance : IsTotal (List Char) rankLe := ⟨fun a b => Nat.le_total (rank_of a) (rank_of b)⟩

instance : IsTrans (List Char) rankLe := ⟨fun _ _ _ h₁ h₂ => Nat.le_trans h₁ h₂⟩

/-! ## Sorter (modelled from the spec, section 4.4) -/

/-- Modelled from the spec: stable sort of the raw tokens by rank ascending,
ties broken by original input order (insertion sort is such a stable sort). -/
def sortTokens (ts : List (List Char)) : List (List Char) :=
  List.insertionSort rankLe ts

/-- Modelled from the spec: drop every token whose raw string equals an
earlier-kept token; the first occurrence wins and the kept order is otherwise
unaffected.  `seen` holds the raw strings kept so far. -/
def dedupKeep (seen : List (List Char)) : List (List Char) → List (List Char)
  | [] => []
  | x :: xs => if x ∈ seen then dedupKeep seen xs else x :: dedupKeep (x :: seen) xs

/-- Modelled from the spec: the Sorter's duplicate handling switch. -/
def maybeDedup (removeDuplicates : Bool) (ts : List (List Char)) : List (List Char) :=
  if removeDuplicates then dedupKeep [] ts else ts

/-- Modelled from the spec: the whole Sorter — stable sort by rank, then
optional duplicate removal. -/
def applySorter (removeDuplicates : Bool) (ts : List (List Char)) : List (List Char) :=
  maybeDedup removeDuplicates (sortTokens ts)

/-! ## Reassembler (modelled from the spec, section 4.5) -/

/-- Modelled from the spec: process one span's inner text through
Tokenizer, Sorter and re-joining with single spaces. -/
def sortSpanInner (removeDuplicates : Bool) (inner : List Char) : List Char :=
  joinSpace (applySorter removeDuplicates (tokenize inner))

/-- Apply the per-span pipeline to span chunks, leaving text chunks alone. -/
def sortChunk (removeDuplicates : Bool) : Chunk → Chunk
  | Chunk.text t => Chunk.text t
  | Chunk.span inner => Chunk.span (sortSpanInner removeDuplicates inner)

/-! ## Options and the write mode (from `src/main.rs` and spec section 6) -/

/-- The three write modes selected on the command line (`src/main.rs`,
match arms in `main` and `run_on_file_paths`). -/
inductive WriteMode
  | dryRun
  | toFile
  | toConsole
deriving DecidableEq

/-- The options record consumed by the caller layer and the core
(`rustywind::options::Options`; the fields are the ones `src/main.rs` uses). -/
structure Options where
  writeMode : WriteMode
  removeDuplicates : Bool
  searchPaths : List (List String)
  startingPath : List String
deriving DecidableEq

/-- Modelled from the spec: the parsed command-line flags that
`Options::new_from_matches` consumes (`src/main.rs` lines 26-51 declare them).
`resolved` stands for the search paths produced by the out-of-scope
directory-walk collaborator. -/
structure ArgMatches where
  write : Bool
  dry_run : Bool
  allow_duplicates : Bool
  path_arg : List String
deriving DecidableEq

/-- Modelled from the spec: `Options::new_from_matches` — in particular
`allow_duplicates` maps to `remove_duplicates = !allow_duplicates`
(spec section 6). -/
def Options.new_from_matches (m : ArgMatches) (resolved : List (List String)) : Options :=
  ⟨ if m.write then WriteMode.toFile
    else if m.dry_run then WriteMode.dryRun
    else WriteMode.toConsole
  , !m.allow_duplicates
  , resolved
  , m.path_arg ⟩

/-- Modelled from the spec: `rustywind::sort_file_contents` — find the spans,
sort each span's tokens, splice the results back, all other bytes unchanged. -/
def sort_file_contents (contents : List Char) (options : Options) : List Char :=
  render ((scan contents).map (sortChunk options.removeDuplicates))

/-! ## The caller layer, from `src/main.rs` -/

/-- The file-system collaborator: `read p` is the content of `p` (`none` when
reading fails), `writeOk p` says whether a write to `p` succeeds. -/
structure Fs where
  read : List String → Option (List Char)
  writeOk : List String → Bool

/-- One observable effect of the caller layer: a file read attempt, a
successful file write, a stdout line, or a stderr line. -/
inductive Effect
  | fsRead (path : List String)
  | fsWrite (path : List String) (contents : List Char)
  | printLn (s : String)
  | eprintLn (s : String)
deriving DecidableEq

/-- Componentwise test that `dir` is a parent of `p`, as
`Path::strip_prefix` checks it (`src/main.rs` line 114). -/
def isParentOf : List String → List String → Bool
  | [], _ => true
  | _ :: _, [] => false
  | d :: ds, q :: qs => d == q && isParentOf ds qs

/-- The `strip_prefix` call of `get_file_name` (`src/main.rs` line 114):
`some` of the remainder when `dir` is a parent of `p`, else `none`. -/
def stripParentDir (p dir : List String) : Option (List String) :=
  if isParentOf dir p then some (p.drop dir.length) else none

/-- `Path::display`: join the path components. -/
def pathDisplay (p : List String) : String := String.intercalate "/" p

/-- `get_file_name` (`src/main.rs` lines 112-118): strip the starting
directory when it is a parent, otherwise display the full path unchanged
(`unwrap_or(file_path)`). -/
def get_file_name (file_path dir : List String) : String :=
  pathDisplay ((stripParentDir file_path dir).getD file_path)

/-- `print_file_name` (`src/main.rs` lines 108-110). -/
def print_file_name (file_path : List String) (options : Options) : Effect :=
  Effect.printLn ("  * " ++ get_file_name file_path options.startingPath)

/-- `print_file_contents` (`src/main.rs` lines 120-122). -/
def print_file_contents (file_contents : List Char) : Effect :=
  Effect.printLn ("\n\n" ++ String.mk file_contents ++ "\n\n")

/-- `write_to_file` (`src/main.rs` lines 95-106): attempt the write; on
success print the file name, on failure print the error and the file name to
stderr (the file is not modified). -/
def write_to_file (fs : Fs) (file_path : List String) (sorted_contents : List Char)
    (options : Options) : List Effect :=
  if fs.writeOk file_path then
    [Effect.fsWrite file_path sorted_contents, print_file_name file_path options]
  else
    [Effect.eprintLn "\nError",
     Effect.eprintLn ("Unable to to save file: " ++ get_file_name file_path options.startingPath)]

/-- `run_on_file_paths` (`src/main.rs` lines 78-93): read the file; on a read
error do nothing (`Err(_error) => ()`); otherwise, when the content has
classes, dispatch on the write mode. -/
def run_on_file_paths (fs : Fs) (file_path : List String) (options : Options) : List Effect :=
  Effect.fsRead file_path ::
    (match fs.read file_path with
     | some contents =>
       if has_classes contents then
         match options.writeMode with
         | WriteMode.dryRun => [print_file_name file_path options]
         | WriteMode.toFile =>
           write_to_file fs file_path (sort_file_contents contents options) options
         | WriteMode.toConsole => [print_file_contents (sort_file_contents contents options)]
       else []
     | none => [])

/-- Is this effect a report to the user (stdout or stderr line)? -/
def isReport : Effect → Bool
  | Effect.printLn _ => true
  | Effect.eprintLn _ => true
  | _ => false

/-- The mode banner printed by `main` (`src/main.rs` lines 55-68). -/
def modeBanner : WriteMode → String
  | WriteMode.dryRun =>
    "\ndry run mode activated: here is a list of files that would be changed when you run with the --write flag"
  | WriteMode.toFile => "\nwrite mode is active the following files are being saved:"
  | WriteMode.toConsole =>
    "\nprinting file contents to console, run with --write to save changes to files:"

/-- The outcome of `main`: the effects it actually executes, and the bodies of
the futures it created but never ran. -/
structure MainRun where
  executed : List Effect
  pending : List (List Effect)
deriving DecidableEq

/-- `main` (`src/main.rs` lines 11-76): print the mode banner, then map every
search path to an `async` block wrapping `run_on_file_paths` and collect the
resulting futures into a `Vec` (lines 69-76).  Rust futures are inert until
polled; this `Vec` is never awaited, spawned or polled (the imported
`FuturesUnordered`/`StreamExt`/`task` machinery is unused), so the per-file
bodies never execute.  `executed` holds the effects `main` performs; `pending`
holds, for each search path in order, the effect list its dropped future would
have produced had it been awaited. -/
def main_run (options : Options) (fs : Fs) : MainRun :=
  ⟨[Effect.printLn (modeBanner options.writeMode)],
   options.searchPaths.map fun p => run_on_file_paths fs p options⟩

/-- Executing every collected per-file task in order — the batch semantics the
spec intends for the worker pool (`one task per file`). -/
def run_all (fs : Fs) (paths : List (List String)) (options : Options) : List Effect :=
  match paths with
  | [] => []
  | p :: rest => run_on_file_paths fs p options ++ run_all fs rest options

/-! ## Generic list lemmas -/

theorem startsWith_iff_take : ∀ (p s : List Char),
    startsWith p s = true ↔ s.take p.length = p := by
  intro p
  induction p with
  | nil => intro s; simp [startsWith]
  | cons a as ih =>
    intro s
    cases s with
    | nil => simp [startsWith]
    | cons b bs =>
      simp only [startsWith, List.length_cons, List.take_succ_cons, Bool.and_eq_true,
        beq_iff_eq, List.cons.injEq, ih bs]
      constructor
      · rintro ⟨h1, h2⟩; exact ⟨h1.symm, h2⟩
      · rintro ⟨h1, h2⟩; exact ⟨h1.symm, h2⟩

theorem startsWith_append (p t : List Char) : startsWith p (p ++ t) = true := by
  rw [startsWith_iff_take, List.take_append_of_le_length (Nat.le_refl _), List.take_length]

theorem startsWith_eq_of_take_eq (p s₁ s₂ : List Char)
    (h : s₁.take p.length = s₂.take p.length) :
    startsWith p s₁ = startsWith p s₂ := by
  cases h1 : startsWith p s₁ <;> cases h2 : startsWith p s₂ <;> try rfl
  · rw [startsWith_iff_take] at h2
    have := (startsWith_iff_take p s₁).mpr (h.trans h2)
    rw [h1] at this; exact absurd this (by simp)
  · rw [startsWith_iff_take] at h1
    have := (startsWith_iff_take p s₂).mpr (h.symm.trans h1)
    rw [h2] at this; exact absurd this (by simp)

theorem takeWhile_all_of_mem {p : Char → Bool} : ∀ {l : List Char},
    (∀ a ∈ l, p a = true) → l.takeWhile p = l := by
  intro l h
  induction l with
  | nil => rfl
  | cons a as ih =>
    have ha := h a (List.mem_cons_self a as)
    rw [List.takeWhile_cons]
    simp [ha, ih fun b hb => h b (List.mem_cons_of_mem a hb)]

theorem takeWhile_append_stop {p : Char → Bool} {b : Char} (hb : p b = false) :
    ∀ (l t : List Char), (∀ a ∈ l, p a = true) →
      (l ++ b :: t).takeWhile p = l ∧ (l ++ b :: t).dropWhile p = b :: t := by
  intro l
  induction l with
  | nil => intro t _; constructor <;> simp [List.takeWhile_cons, List.dropWhile_cons, hb]
  | cons a as ih =>
    intro t h
    have ha : p a = true := h a (List.mem_cons_self a as)
    have hrec := ih t fun c hc => h c (List.mem_cons_of_mem a hc)
    constructor
    · simp only [List.cons_append, List.takeWhile_cons, ha, if_true, hrec.1]
    · simp only [List.cons_append, List.dropWhile_cons, ha, if_true, hrec.2]

theorem mem_of_mem_takeWhile {p : Char → Bool} : ∀ {l : List Char} {a : Char},
    a ∈ l.takeWhile p → a ∈ l ∧ p a = true := by
  intro l
  induction l with
  | nil => intro a h; rw [List.takeWhile_nil] at h; cases h
  | cons b bs ih =>
    intro a h
    rw [List.takeWhile_cons] at h
    by_cases hb : p b = true
    · rw [hb] at h; simp only [if_true] at h
      rcases List.mem_cons.mp h with h | h
      · exact ⟨h ▸ List.mem_cons_self b bs, h ▸ hb⟩
      · rcases ih h with ⟨h1, h2⟩; exact ⟨List.mem_cons_of_mem b h1, h2⟩
    · rw [Bool.not_eq_true] at hb; rw [hb] at h; simp at h

theorem mem_of_mem_dropWhile {p : Char → Bool} : ∀ {l : List Char} {a : Char},
    a ∈ l.dropWhile p → a ∈ l := by
  intro l
  induction l with
  | nil => intro a h; rw [List.dropWhile_nil] at h; cases h
  | cons b bs ih =>
    intro a h
    rw [List.dropWhile_cons] at h
    by_cases hb : p b = true
    · rw [hb] at h; simp only [if_true] at h
      exact List.mem_cons_of_mem b (ih h)
    · rw [if_neg hb] at h
      exact h

theorem dropWhile_length_le {p : Char → Bool} : ∀ (l : List Char),
    (l.dropWhile p).length ≤ l.length := by
  intro l
  induction l with
  | nil => simp [List.dropWhile]
  | cons b bs ih =>
    rw [List.dropWhile_cons]
    by_cases hb : p b = true
    · rw [hb]; simp only [if_true]
      exact Nat.le_trans ih (Nat.le_succ _)
    · rw [Bool.not_eq_true] at hb; rw [hb]; simp

theorem dropWhile_head_false {p : Char → Bool} : ∀ {l : List Char} {a : Char} {t : List Char},
    l.dropWhile p = a :: t → p a = false := by
  intro l
  induction l with
  | nil => intro a t h; simp [List.dropWhile_nil] at h
  | cons b bs ih =>
    intro a t h
    rw [List.dropWhile_cons] at h
    by_cases hb : p b = true
    · rw [hb] at h; simp only [if_true] at h; exact ih h
    · rw [if_neg hb] at h
      rw [Bool.not_eq_true] at hb
      injection h with h1 h2
      rw [← h1]; exact hb

theorem take_append_le (k : Nat) (a b : List Char) (h : k ≤ a.length) :
    (a ++ b).take k = a.take k :=
  List.take_append_of_le_length h

theorem render_consText (c : Char) (cs : List Chunk) :
    render (consText c cs) = c :: render cs := by
  match cs with
  | [] => rfl
  | Chunk.text t :: cs' => rfl
  | Chunk.span i :: cs' => rfl

theorem spanInners_consText (c : Char) (cs : List Chunk) :
    spanInners (consText c cs) = spanInners cs := by
  match cs with
  | [] => rfl
  | Chunk.text t :: cs' => rfl
  | Chunk.span i :: cs' => rfl

theorem scanF_irrel : ∀ f₁ f₂ s, s.length < f₁ → s.length < f₂ →
    scanF f₁ s = scanF f₂ s := by
  intro f₁
  induction f₁ with
  | zero => intro f₂ s h1 _; exact absurd h1 (Nat.not_lt_zero _)
  | succ g ih =>
    intro f₂ s h1 h2
    match f₂, h2 with
    | f₂' + 1, h2 =>
      match s with
      | [] => rfl
      | c :: rest =>
        rw [scanF, scanF]
        by_cases hd : startsWith delim (c :: rest) = true
        · rw [if_pos hd, if_pos hd]
          set r2 := ((c :: rest).drop 7).dropWhile (fun d => d != '"') with hr2
          by_cases he : r2.isEmpty = true
          · rw [if_pos he, if_pos he]
          · rw [if_neg he, if_neg he]
            have hlen : r2.tail.length < g ∧ r2.tail.length < f₂' := by
              have h3 : r2.length ≤ ((c :: rest).drop 7).length :=
                dropWhile_length_le _
              have h4 : ((c :: rest).drop 7).length = rest.length - 6 := by
                rw [List.length_drop]; rfl
              have h5 : r2.tail.length = r2.length - 1 := List.length_tail r2
              have h6 : rest.length + 1 < g + 1 := h1
              have h7 : rest.length + 1 < f₂' + 1 := h2
              omega
            rw [ih f₂' r2.tail hlen.1 hlen.2]
        · rw [if_neg hd, if_neg hd]
          have hlen : rest.length < g ∧ rest.length < f₂' := by
            have h6 : rest.length + 1 < g + 1 := h1
            have h7 : rest.length + 1 < f₂' + 1 := h2
            omega
          rw [ih f₂' rest hlen.1 hlen.2]

theorem scanF_eq_scan (f : Nat) (s : List Char) (h : s.length < f) :
    scanF f s = scan s :=
  scanF_irrel f (s.length + 1) s h (Nat.lt_succ_self _)

/-! ## Scanner structure lemmas -/

theorem quote_head {l : List Char} {hd : Char} {tl : List Char}
    (h : l.dropWhile (fun d => d != '"') = hd :: tl) : hd = '"' := by
  have hf := dropWhile_head_false h
  simpa using hf

theorem isEmpty_false_iff {l : List Char} : l.isEmpty = false ↔ l ≠ [] := by
  cases l <;> simp [List.isEmpty]

theorem delim_decomp {s : List Char} (h : startsWith delim s = true) :
    s = delim ++ s.drop 7 := by
  have ht := (startsWith_iff_take delim s).mp h
  rw [show delim.length = 7 from rfl] at ht
  conv_lhs => rw [← List.take_append_drop 7 s, ht]

theorem render_scanF : ∀ (fuel : Nat) (s : List Char), render (scanF fuel s) = s := by
  intro fuel
  induction fuel with
  | zero => intro s; simp [scanF, render, renderChunk]
  | succ g ih =>
    intro s
    match s with
    | [] => rfl
    | c :: rest =>
      rw [scanF]
      by_cases hd : startsWith delim (c :: rest) = true
      · rw [if_pos hd]
        by_cases he : (((c :: rest).drop 7).dropWhile (fun d => d != '"')).isEmpty = true
        · rw [if_pos he]; simp [render, renderChunk]
        · rw [if_neg he]
          obtain ⟨hd2, tl2, hr2⟩ : ∃ hd2 tl2,
              ((c :: rest).drop 7).dropWhile (fun d => d != '"') = hd2 :: tl2 := by
            rcases hq : ((c :: rest).drop 7).dropWhile (fun d => d != '"') with _ | ⟨x, xs⟩
            · rw [hq] at he; exact absurd rfl he
            · exact ⟨x, xs, rfl⟩
          have hq : hd2 = '"' := quote_head hr2
          rw [hq] at hr2
          rw [render, renderChunk, hr2, List.tail_cons, ih tl2]
          have hsplit : ((c :: rest).drop 7).takeWhile (fun d => d != '"') ++
              ((c :: rest).drop 7).dropWhile (fun d => d != '"') = (c :: rest).drop 7 :=
            List.takeWhile_append_dropWhile ..
          conv_rhs => rw [delim_decomp hd, ← hsplit, hr2]
          simp [List.append_assoc]
      · rw [if_neg hd, render_consText, ih rest]

theorem render_scan (s : List Char) : render (scan s) = s := render_scanF _ s

theorem scan_nil : scan [] = [] := rfl

theorem scan_cons_text {c : Char} {rest : List Char}
    (h : startsWith delim (c :: rest) = false) :
    scan (c :: rest) = consText c (scan rest) := by
  show scanF (rest.length + 1 + 1) (c :: rest) = consText c (scanF (rest.length + 1) rest)
  rw [scanF, if_neg (by simp [h])]

theorem scan_span_step {inner tail : List Char}
    (hq : ∀ c ∈ inner, (c != '"') = true) :
    scan (delim ++ (inner ++ '"' :: tail)) = Chunk.span inner :: scan tail := by
  obtain ⟨htake, hdrop⟩ :=
    takeWhile_append_stop (p := fun d => d != '"') (b := '"') (by decide) inner tail hq
  have hlen : (delim ++ (inner ++ '"' :: tail)).length = inner.length + tail.length + 8 := by
    rw [List.length_append, List.length_append, List.length_cons,
      show delim.length = 7 from rfl]
    omega
  have hexp : delim ++ (inner ++ '"' :: tail) =
      'c' :: ('l' :: 'a' :: 's' :: 's' :: '=' :: '"' :: (inner ++ '"' :: tail)) := rfl
  have hsw : startsWith delim (delim ++ (inner ++ '"' :: tail)) = true := startsWith_append ..
  obtain ⟨n, hn⟩ : ∃ n, (delim ++ (inner ++ '"' :: tail)).length = n + 1 :=
    ⟨inner.length + tail.length + 7, by omega⟩
  have htl : tail.length < n := by omega
  rw [show scan (delim ++ (inner ++ '"' :: tail)) =
      scanF ((delim ++ (inner ++ '"' :: tail)).length + 1) (delim ++ (inner ++ '"' :: tail))
      from rfl]
  rw [hn]
  rw [hexp] at hsw ⊢
  rw [scanF, if_pos hsw]
  rw [show (('c' :: ('l' :: 'a' :: 's' :: 's' :: '=' :: '"' :: (inner ++ '"' :: tail))).drop 7)
      = inner ++ '"' :: tail from rfl]
  rw [hdrop, htake]
  rw [if_neg (by simp)]
  rw [List.tail_cons]
  rw [scanF_eq_scan (n + 1) tail (Nat.lt_succ_of_lt htl)]

/-! ## Tokenizer lemmas -/

theorem tokenizeF_irrel : ∀ f₁ f₂ s, s.length < f₁ → s.length < f₂ →
    tokenizeF f₁ s = tokenizeF f₂ s := by
  intro f₁
  induction f₁ with
  | zero => intro f₂ s h1 _; exact absurd h1 (Nat.not_lt_zero _)
  | succ g ih =>
    intro f₂ s h1 h2
    match f₂, h2 with
    | f₂' + 1, h2 =>
      match s with
      | [] => rfl
      | c :: rest =>
        rw [tokenizeF, tokenizeF]
        have hr : rest.length < g ∧ rest.length < f₂' := by
          have h3 : rest.length + 1 < g + 1 := h1
          have h4 : rest.length + 1 < f₂' + 1 := h2
          omega
        by_cases hw : c.isWhitespace = true
        · rw [if_pos hw, if_pos hw, ih f₂' rest hr.1 hr.2]
        · rw [if_neg hw, if_neg hw]
          have hd : (rest.dropWhile (fun d => !d.isWhitespace)).length < g ∧
              (rest.dropWhile (fun d => !d.isWhitespace)).length < f₂' := by
            have h5 := dropWhile_length_le (p := fun d => !d.isWhitespace) rest
            omega
          rw [ih f₂' _ hd.1 hd.2]

theorem tokenizeF_eq_tokenize (f : Nat) (s : List Char) (h : s.length < f) :
    tokenizeF f s = tokenize s :=
  tokenizeF_irrel f (s.length + 1) s h (Nat.lt_succ_self _)

theorem tokenize_wf : ∀ (fuel : Nat) (s : List Char) (t : List Char),
    t ∈ tokenizeF fuel s → t ≠ [] ∧ ∀ c ∈ t, c.isWhitespace = false := by
  intro fuel
  induction fuel with
  | zero => intro s t h; cases h
  | succ g ih =>
    intro s t h
    match s with
    | [] => cases h
    | c :: rest =>
      rw [tokenizeF] at h
      by_cases hw : c.isWhitespace = true
      · rw [if_pos hw] at h; exact ih rest t h
      · rw [if_neg hw] at h
        rcases List.mem_cons.mp h with h | h
        · subst h
          refine ⟨by simp, ?_⟩
          intro d hd
          rcases List.mem_cons.mp hd with h | h
          · subst h; exact Bool.not_eq_true _ ▸ hw
          · have := (mem_of_mem_takeWhile h).2
            simpa using this
        · exact ih _ t h

theorem tokenize_chars : ∀ (fuel : Nat) (s : List Char) (t : List Char) (c : Char),
    t ∈ tokenizeF fuel s → c ∈ t → c ∈ s := by
  intro fuel
  induction fuel with
  | zero => intro s t c h; cases h
  | succ g ih =>
    intro s t c h hc
    match s with
    | [] => cases h
    | b :: rest =>
      rw [tokenizeF] at h
      by_cases hw : b.isWhitespace = true
      · rw [if_pos hw] at h
        exact List.mem_cons_of_mem b (ih rest t c h hc)
      · rw [if_neg hw] at h
        rcases List.mem_cons.mp h with h | h
        · subst h
          rcases List.mem_cons.mp hc with h | h
          · subst h; exact List.mem_cons_self ..
          · exact List.mem_cons_of_mem b (mem_of_mem_takeWhile h).1
        · exact List.mem_cons_of_mem b
            (mem_of_mem_dropWhile (ih _ t c h hc))

theorem tokenize_single {t : List Char} (hne : t ≠ [])
    (hwf : ∀ c ∈ t, c.isWhitespace = false) : tokenize t = [t] := by
  match t, hne with
  | c :: rest, _ =>
    show tokenizeF (rest.length + 1 + 1) (c :: rest) = [c :: rest]
    rw [tokenizeF]
    have hc : c.isWhitespace = false := hwf c (List.mem_cons_self ..)
    rw [if_neg (by simp [hc])]
    have htw : rest.takeWhile (fun d => !d.isWhitespace) = rest :=
      takeWhile_all_of_mem fun a ha => by
        simp [hwf a (List.mem_cons_of_mem c ha)]
    have hdw : rest.dropWhile (fun d => !d.isWhitespace) = [] :=
      List.dropWhile_eq_nil_iff.mpr fun a ha => by
        simp [hwf a (List.mem_cons_of_mem c ha)]
    rw [htw, hdw]
    match rest with
    | [] => rfl
    | _ :: _ => rfl

theorem tokenize_cons_step {t : List Char} (r : List Char) (hne : t ≠ [])
    (hwf : ∀ c ∈ t, c.isWhitespace = false) :
    tokenize (t ++ ' ' :: r) = t :: tokenize r := by
  match t, hne with
  | c :: rest, _ =>
    show tokenizeF ((c :: rest ++ ' ' :: r).length + 1) (c :: (rest ++ ' ' :: r)) = _
    have hlen : (c :: rest ++ ' ' :: r).length = rest.length + r.length + 2 := by
      simp [List.length_append]; omega
    rw [hlen, tokenizeF]
    have hc : c.isWhitespace = false := hwf c (List.mem_cons_self ..)
    rw [if_neg (by simp [hc])]
    obtain ⟨htw, hdw⟩ := takeWhile_append_stop (p := fun d => !d.isWhitespace) (b := ' ')
      (by decide) rest r (fun a ha => by simp [hwf a (List.mem_cons_of_mem c ha)])
    rw [htw, hdw, tokenizeF, if_pos (by decide)]
    rw [tokenizeF_eq_tokenize _ r (by omega)]

theorem joinSpace_chars : ∀ (ts : List (List Char)) (c : Char),
    c ∈ joinSpace ts → c = ' ' ∨ ∃ t, t ∈ ts ∧ c ∈ t := by
  intro ts
  induction ts with
  | nil => intro c h; cases h
  | cons t ts ih =>
    intro c h
    match ts, h with
    | [], h => exact Or.inr ⟨t, List.mem_cons_self .., h⟩
    | t₂ :: ts', h =>
      rw [show joinSpace (t :: t₂ :: ts') = t ++ ' ' :: joinSpace (t₂ :: ts') from rfl] at h
      rcases List.mem_append.mp h with h | h
      · exact Or.inr ⟨t, List.mem_cons_self .., h⟩
      · rcases List.mem_cons.mp h with h | h
        · exact Or.inl h
        · rcases ih c h with h | ⟨u, hu, hcu⟩
          · exact Or.inl h
          · exact Or.inr ⟨u, List.mem_cons_of_mem t hu, hcu⟩

theorem tokenize_joinSpace : ∀ (ts : List (List Char)),
    (∀ t ∈ ts, t ≠ [] ∧ ∀ c ∈ t, c.isWhitespace = false) →
    tokenize (joinSpace ts) = ts := by
  intro ts
  induction ts with
  | nil => intro _; rfl
  | cons t ts ih =>
    intro h
    match ts with
    | [] =>
      have := h t (List.mem_cons_self ..)
      exact tokenize_single this.1 this.2
    | t₂ :: ts' =>
      rw [show joinSpace (t :: t₂ :: ts') = t ++ ' ' :: joinSpace (t₂ :: ts') from rfl]
      have ht := h t (List.mem_cons_self ..)
      rw [tokenize_cons_step _ ht.1 ht.2]
      rw [ih fun u hu => h u (List.mem_cons_of_mem t hu)]

/-! ## Sorter lemmas -/

theorem mem_sortTokens {ts : List (List Char)} {x : List Char} :
    x ∈ sortTokens ts ↔ x ∈ ts :=
  List.mem_insertionSort rankLe

theorem sortTokens_perm (ts : List (List Char)) : List.Perm (sortTokens ts) ts :=
  List.perm_insertionSort rankLe ts

theorem sortTokens_sorted (ts : List (List Char)) : List.Sorted rankLe (sortTokens ts) :=
  List.sorted_insertionSort rankLe ts

theorem sortTokens_eq_of_sorted {l : List (List Char)} (h : List.Sorted rankLe l) :
    sortTokens l = l :=
  List.Sorted.insertionSort_eq h

theorem dedupKeep_sublist : ∀ (seen l : List (List Char)),
    List.Sublist (dedupKeep seen l) l := by
  intro seen l
  induction l generalizing seen with
  | nil => exact List.Sublist.refl []
  | cons x xs ih =>
    rw [dedupKeep]
    by_cases hx : x ∈ seen
    · rw [if_pos hx]; exact List.Sublist.cons x (ih seen)
    · rw [if_neg hx]; exact List.Sublist.cons₂ x (ih (x :: seen))

theorem mem_dedupKeep_imp {seen l : List (List Char)} {x : List Char}
    (h : x ∈ dedupKeep seen l) : x ∈ l :=
  (dedupKeep_sublist seen l).mem h

theorem mem_dedupKeep : ∀ {seen l : List (List Char)} {x : List Char},
    x ∈ l → x ∉ seen → x ∈ dedupKeep seen l := by
  intro seen l
  induction l generalizing seen with
  | nil => intro x h; cases h
  | cons y ys ih =>
    intro x h hs
    rw [dedupKeep]
    by_cases hy : y ∈ seen
    · rw [if_pos hy]
      rcases List.mem_cons.mp h with h | h
      · exact absurd (h ▸ hy) hs
      · exact ih h hs
    · rw [if_neg hy]
      rcases List.mem_cons.mp h with h | h
      · exact h ▸ List.mem_cons_self ..
      · by_cases hxy : x = y
        · exact hxy ▸ List.mem_cons_self ..
        · exact List.mem_cons_of_mem y
            (ih h (by simp [hxy, hs]))

theorem dedupKeep_not_mem_seen : ∀ {seen l : List (List Char)} {x : List Char},
    x ∈ dedupKeep seen l → x ∉ seen := by
  intro seen l
  induction l generalizing seen with
  | nil => intro x h; cases h
  | cons y ys ih =>
    intro x h
    rw [dedupKeep] at h
    by_cases hy : y ∈ seen
    · rw [if_pos hy] at h; exact ih h
    · rw [if_neg hy] at h
      rcases List.mem_cons.mp h with h | h
      · exact h ▸ hy
      · intro hs
        exact ih h (List.mem_cons_of_mem y hs)

theorem dedupKeep_nodup : ∀ (seen l : List (List Char)), (dedupKeep seen l).Nodup := by
  intro seen l
  induction l generalizing seen with
  | nil => exact List.nodup_nil
  | cons y ys ih =>
    rw [dedupKeep]
    by_cases hy : y ∈ seen
    · rw [if_pos hy]; exact ih seen
    · rw [if_neg hy]
      refine List.nodup_cons.mpr ⟨?_, ih (y :: seen)⟩
      intro hmem
      exact dedupKeep_not_mem_seen hmem (List.mem_cons_self ..)

theorem dedupKeep_eq_self : ∀ {seen l : List (List Char)},
    l.Nodup → (∀ x ∈ l, x ∉ seen) → dedupKeep seen l = l := by
  intro seen l
  induction l generalizing seen with
  | nil => intro _ _; rfl
  | cons y ys ih =>
    intro hnd hs
    rw [dedupKeep, if_neg (hs y (List.mem_cons_self ..))]
    rw [ih (List.nodup_cons.mp hnd).2]
    intro x hx
    rcases List.nodup_cons.mp hnd with ⟨hy, _⟩
    intro hmem
    rcases List.mem_cons.mp hmem with h | h
    · exact hy (h ▸ hx)
    · exact hs x (List.mem_cons_of_mem y hx) h

theorem mem_applySorter_imp {rd : Bool} {ts : List (List Char)} {x : List Char}
    (h : x ∈ applySorter rd ts) : x ∈ ts := by
  rw [applySorter, maybeDedup] at h
  by_cases hrd : rd = true
  · rw [if_pos hrd] at h
    exact mem_sortTokens.mp (mem_dedupKeep_imp h)
  · rw [if_neg hrd] at h
    exact mem_sortTokens.mp h

theorem applySorter_sorted (rd : Bool) (ts : List (List Char)) :
    List.Sorted rankLe (applySorter rd ts) := by
  rw [applySorter, maybeDedup]
  by_cases hrd : rd = true
  · rw [if_pos hrd]
    exact List.Pairwise.sublist (dedupKeep_sublist [] (sortTokens ts)) (sortTokens_sorted ts)
  · rw [if_neg hrd]
    exact sortTokens_sorted ts

theorem applySorter_applySorter (rd : Bool) (ts : List (List Char)) :
    applySorter rd (applySorter rd ts) = applySorter rd ts := by
  by_cases hrd : rd = true
  · subst hrd
    have hs : List.Sorted rankLe (applySorter true ts) := applySorter_sorted true ts
    have hnd : (applySorter true ts).Nodup := by
      rw [applySorter, maybeDedup, if_pos rfl]
      exact dedupKeep_nodup [] (sortTokens ts)
    rw [show applySorter true (applySorter true ts)
        = dedupKeep [] (sortTokens (applySorter true ts)) from rfl]
    rw [sortTokens_eq_of_sorted hs]
    exact dedupKeep_eq_self hnd fun x _ => List.not_mem_nil x
  · have hrd' : rd = false := by
      cases rd
      · rfl
      · exact absurd rfl hrd
    subst hrd'
    rw [show applySorter false (applySorter false ts)
        = sortTokens (sortTokens ts) from rfl]
    exact sortTokens_eq_of_sorted (sortTokens_sorted ts)

theorem applySorter_wf {rd : Bool} {inner : List Char} :
    ∀ t ∈ applySorter rd (tokenize inner), t ≠ [] ∧ ∀ c ∈ t, c.isWhitespace = false := by
  intro t ht
  exact tokenize_wf _ inner t (mem_applySorter_imp ht)

theorem sortSpanInner_idem (rd : Bool) (inner : List Char) :
    sortSpanInner rd (sortSpanInner rd inner) = sortSpanInner rd inner := by
  rw [sortSpanInner, sortSpanInner]
  rw [tokenize_joinSpace _ applySorter_wf]
  rw [applySorter_applySorter]

theorem sortChunk_idem (rd : Bool) : ∀ ch : Chunk,
    sortChunk rd (sortChunk rd ch) = sortChunk rd ch := by
  intro ch
  match ch with
  | Chunk.text t => rfl
  | Chunk.span inner =>
    rw [sortChunk, sortChunk, sortSpanInner_idem]

theorem sortSpanInner_chars {rd : Bool} {inner : List Char} {c : Char}
    (h : c ∈ sortSpanInner rd inner) : c = ' ' ∨ c ∈ inner := by
  rw [sortSpanInner] at h
  rcases joinSpace_chars _ c h with h | ⟨t, ht, hct⟩
  · exact Or.inl h
  · exact Or.inr (tokenize_chars _ inner t c (mem_applySorter_imp ht) hct)

theorem sortSpanInner_noquote {rd : Bool} {inner : List Char}
    (hq : ∀ c ∈ inner, (c != '"') = true) :
    ∀ c ∈ sortSpanInner rd inner, (c != '"') = true := by
  intro c hc
  rcases sortSpanInner_chars hc with h | h
  · subst h; decide
  · exact hq c h

/-! ## Rescan stability: scanning the reassembled output finds the same spans -/

theorem map_sortChunk_consText (rd : Bool) (c : Char) (cs : List Chunk) :
    (consText c cs).map (sortChunk rd) = consText c (cs.map (sortChunk rd)) := by
  match cs with
  | [] => rfl
  | Chunk.text t :: cs' => rfl
  | Chunk.span i :: cs' => rfl

theorem take_render_map (rd : Bool) : ∀ (fuel : Nat) (s : List Char) (k : Nat), k ≤ 7 →
    (render ((scanF fuel s).map (sortChunk rd))).take k = s.take k := by
  intro fuel
  induction fuel with
  | zero =>
    intro s k _
    simp [scanF, render, renderChunk, sortChunk]
  | succ g ih =>
    intro s k hk
    match s with
    | [] => rfl
    | c :: rest =>
      rw [scanF]
      by_cases hd : startsWith delim (c :: rest) = true
      · rw [if_pos hd]
        by_cases he : (((c :: rest).drop 7).dropWhile (fun d => d != '"')).isEmpty = true
        · rw [if_pos he]
          simp [render, renderChunk, sortChunk]
        · rw [if_neg he]
          rw [List.map_cons, render]
          rw [show renderChunk (sortChunk rd
              (Chunk.span (((c :: rest).drop 7).takeWhile (fun d => d != '"'))))
            = delim ++ sortSpanInner rd (((c :: rest).drop 7).takeWhile (fun d => d != '"'))
                ++ ['"'] from rfl]
          rw [List.append_assoc, List.append_assoc]
          rw [take_append_le k delim _ (by rw [show delim.length = 7 from rfl]; omega)]
          conv_rhs => rw [delim_decomp hd]
          rw [take_append_le k delim _ (by rw [show delim.length = 7 from rfl]; omega)]
      · rw [if_neg hd]
        rw [map_sortChunk_consText, render_consText]
        match k, hk with
        | 0, _ => rfl
        | k' + 1, hk =>
          rw [List.take_succ_cons, List.take_succ_cons]
          rw [ih rest k' (by omega)]

theorem scan_render_map (rd : Bool) : ∀ (fuel : Nat) (s : List Char), s.length < fuel →
    scan (render ((scanF fuel s).map (sortChunk rd))) = (scanF fuel s).map (sortChunk rd) := by
  intro fuel
  induction fuel with
  | zero => intro s h; exact absurd h (Nat.not_lt_zero _)
  | succ g ih =>
    intro s hlen
    match s with
    | [] => rfl
    | c :: rest =>
      rw [scanF]
      by_cases hd : startsWith delim (c :: rest) = true
      · rw [if_pos hd]
        by_cases he : (((c :: rest).drop 7).dropWhile (fun d => d != '"')).isEmpty = true
        · rw [if_pos he]
          rw [show ([Chunk.text (c :: rest)].map (sortChunk rd))
              = [Chunk.text (c :: rest)] from rfl]
          rw [show render [Chunk.text (c :: rest)] = (c :: rest) ++ render [] from rfl]
          rw [show render ([] : List Chunk) = [] from rfl, List.append_nil]
          show scanF ((c :: rest).length + 1) (c :: rest) = _
          rw [scanF, if_pos hd, if_pos he]
        · rw [if_neg he]
          obtain ⟨hd2, tl2, hr2⟩ : ∃ hd2 tl2,
              ((c :: rest).drop 7).dropWhile (fun d => d != '"') = hd2 :: tl2 := by
            rcases hq : ((c :: rest).drop 7).dropWhile (fun d => d != '"') with _ | ⟨x, xs⟩
            · rw [hq] at he; exact absurd rfl he
            · exact ⟨x, xs, rfl⟩
          have hq2 : hd2 = '"' := quote_head hr2
          rw [hq2] at hr2
          rw [hr2, List.tail_cons]
          have htl2 : tl2.length < g := by
            have h1 : (((c :: rest).drop 7).dropWhile (fun d => d != '"')).length
                = tl2.length + 1 := by rw [hr2]; rfl
            have h2 := dropWhile_length_le (p := fun d => d != '"') ((c :: rest).drop 7)
            have h3 : ((c :: rest).drop 7).length = (c :: rest).length - 7 :=
              List.length_drop ..
            have h4 : (c :: rest).length = rest.length + 1 := rfl
            have h5 : rest.length + 1 < g + 1 := hlen
            omega
          rw [List.map_cons]
          rw [show sortChunk rd (Chunk.span
                (((c :: rest).drop 7).takeWhile (fun d => d != '"')))
              = Chunk.span (sortSpanInner rd
                (((c :: rest).drop 7).takeWhile (fun d => d != '"'))) from rfl]
          rw [render]
          rw [show renderChunk (Chunk.span (sortSpanInner rd
                (((c :: rest).drop 7).takeWhile (fun d => d != '"'))))
              = (delim ++ sortSpanInner rd
                  (((c :: rest).drop 7).takeWhile (fun d => d != '"'))) ++ ['"'] from rfl]
          rw [List.append_assoc, List.append_assoc, List.singleton_append]
          have hqfree : ∀ d ∈ ((c :: rest).drop 7).takeWhile (fun d => d != '"'),
              (d != '"') = true := fun d hd => (mem_of_mem_takeWhile hd).2
          rw [scan_span_step (@sortSpanInner_noquote rd _ hqfree)]
          rw [ih tl2 htl2]
      · rw [if_neg hd]
        rw [map_sortChunk_consText, render_consText]
        have hrest : rest.length < g := by
          have h5 : rest.length + 1 < g + 1 := hlen
          omega
        have htk := take_render_map rd g rest 6 (by omega)
        have hsw : startsWith delim
            (c :: render ((scanF g rest).map (sortChunk rd))) = false := by
          have heq := startsWith_eq_of_take_eq delim
            (c :: render ((scanF g rest).map (sortChunk rd))) (c :: rest)
            (by rw [show delim.length = 7 from rfl, List.take_succ_cons,
                List.take_succ_cons, htk])
          rw [heq]
          rw [Bool.not_eq_true] at hd
          exact hd
        rw [scan_cons_text hsw]
        rw [ih rest hrest]

/-! ## Whole-pipeline lemmas -/

theorem map_sortChunk_idem (rd : Bool) : ∀ cs : List Chunk,
    (cs.map (sortChunk rd)).map (sortChunk rd) = cs.map (sortChunk rd) := by
  intro cs
  induction cs with
  | nil => rfl
  | cons ch cs ih =>
    rw [List.map_cons, List.map_cons, ih, sortChunk_idem]

theorem scan_sort_file_contents (contents : List Char) (options : Options) :
    scan (sort_file_contents contents options)
      = (scan contents).map (sortChunk options.removeDuplicates) :=
  scan_render_map options.removeDuplicates (contents.length + 1) contents (Nat.lt_succ_self _)

theorem outsideBytes_map (rd : Bool) : ∀ cs : List Chunk,
    outsideBytes (cs.map (sortChunk rd)) = outsideBytes cs := by
  intro cs
  induction cs with
  | nil => rfl
  | cons ch cs ih =>
    match ch with
    | Chunk.text t => rw [List.map_cons]; rw [show sortChunk rd (Chunk.text t) = Chunk.text t from rfl,
        outsideBytes, outsideBytes, ih]
    | Chunk.span i => rw [List.map_cons]; rw [show sortChunk rd (Chunk.span i)
        = Chunk.span (sortSpanInner rd i) from rfl, outsideBytes, outsideBytes, ih]

theorem mem_drop_one {l : List Char} {a : Char} (h : a ∈ l.drop 1) : a ∈ l := by
  match l with
  | [] => cases h
  | b :: bs => exact List.mem_cons_of_mem b h

theorem mem_drop_succ {t : List Char} {a : Char} {n : Nat} (h : a ∈ t.drop (n + 1)) :
    a ∈ t.drop n := by
  rw [← List.drop_drop 1 n t] at h
  exact mem_drop_one h

theorem hc_false_of_noquote : ∀ (t : List Char),
    (∀ c ∈ t.drop 6, (c != '"') = true) → has_classes t = false := by
  intro t
  induction t with
  | nil => intro _; rfl
  | cons c rest ih =>
    intro h
    rw [has_classes]
    have h7 : ∀ d ∈ (c :: rest).drop 7, (d != '"') = true := fun d hd =>
      h d (mem_drop_succ hd)
    have hdw : ((c :: rest).drop 7).dropWhile (fun d => d != '"') = [] :=
      List.dropWhile_eq_nil_iff.mpr h7
    rw [hdw]
    have hrest : has_classes rest = false := by
      apply ih
      intro d hd
      exact h d (mem_drop_succ (show d ∈ (c :: rest).drop 7 from hd))
    rw [hrest]
    simp

theorem has_classes_iff_spanInners : ∀ (fuel : Nat) (s : List Char), s.length < fuel →
    (has_classes s = true ↔ spanInners (scanF fuel s) ≠ []) := by
  intro fuel
  induction fuel with
  | zero => intro s h; exact absurd h (Nat.not_lt_zero _)
  | succ g ih =>
    intro s hlen
    match s with
    | [] => simp [has_classes, scanF, spanInners]
    | c :: rest =>
      rw [scanF, has_classes]
      by_cases hd : startsWith delim (c :: rest) = true
      · by_cases he : (((c :: rest).drop 7).dropWhile (fun d => d != '"')).isEmpty = true
        · rw [if_pos hd, if_pos he, hd, he]
          have hrest : has_classes rest = false := by
            apply hc_false_of_noquote
            intro d hdm
            have h7 := List.dropWhile_eq_nil_iff.mp (List.isEmpty_iff.mp he)
            exact h7 d (show d ∈ (c :: rest).drop 7 from hdm)
          rw [hrest]
          simp [spanInners]
        · have hef : (((c :: rest).drop 7).dropWhile (fun d => d != '"')).isEmpty = false := by
            cases hx : (((c :: rest).drop 7).dropWhile (fun d => d != '"')).isEmpty
            · rfl
            · exact absurd hx he
          rw [if_pos hd, if_neg he, hd, hef]
          simp [spanInners]
      · have hdf : startsWith delim (c :: rest) = false := by
          cases hx : startsWith delim (c :: rest)
          · rfl
          · exact absurd hx hd
        rw [if_neg hd, hdf, spanInners_consText]
        have hrest : rest.length < g := by
          have h5 : rest.length + 1 < g + 1 := hlen
          omega
        have := ih rest hrest
        simpa using this

theorem has_classes_iff_find_spans (s : List Char) :
    has_classes s = true ↔ find_spans s ≠ [] :=
  has_classes_iff_spanInners (s.length + 1) s (Nat.lt_succ_self _)

theorem fsRead_mem_run_all (fs : Fs) (paths : List (List String)) (options : Options)
    (p : List String) : p ∈ paths → Effect.fsRead p ∈ run_all fs paths options := by
  induction paths with
  | nil => intro hp; cases hp
  | cons q rest ih =>
    intro hp
    rw [run_all]
    rcases List.mem_cons.mp hp with h | h
    · subst h
      exact List.mem_append.mpr (Or.inl (List.mem_cons_self ..))
    · exact List.mem_append.mpr (Or.inr (ih h))

/-! ## Claim theorems -/

/-- C1 (divergence evidence): the claim says `main` causes every file in
`options.search_paths` to be read and fully processed.  In the code, `main`
maps each search path to an `async` block and collects the futures into a
`Vec` that is never awaited or polled, so no per-file body ever runs.  At the
concrete input below, the path is in `search_paths` and its pending task would
begin by reading the file, yet the effects `main` executes contain no file
read at all — only the mode banner. -/
theorem claim_C1_files_never_processed :
    (["test.html"] ∈
      (⟨WriteMode.toConsole, true, [["test.html"]], []⟩ : Options).searchPaths)
    ∧ ((main_run ⟨WriteMode.toConsole, true, [["test.html"]], []⟩
        ⟨fun _ => some ("x class=\"b a\" y".toList), fun _ => true⟩).executed
        = [Effect.printLn (modeBanner WriteMode.toConsole)])
    ∧ (Effect.fsRead ["test.html"] ∉
        (main_run ⟨WriteMode.toConsole, true, [["test.html"]], []⟩
          ⟨fun _ => some ("x class=\"b a\" y".toList), fun _ => true⟩).executed)
    ∧ (Effect.fsRead ["test.html"] ∈
        run_on_file_paths ⟨fun _ => some ("x class=\"b a\" y".toList), fun _ => true⟩
          ["test.html"] ⟨WriteMode.toConsole, true, [["test.html"]], []⟩) :=
  ⟨List.mem_cons_self .., rfl, by decide, List.mem_cons_self ..⟩

/-- C2: for a readable file whose content has class-bearing spans, the action
depends only on the write mode — dry-run reports only the file name (the
transformed content is discarded), write mode writes the transformed content
back to the same path (when the write succeeds) and reports the name, console
mode prints the transformed content and performs no disk write. -/
theorem claim_C2_write_mode_dispatch (fs : Fs) (p : List String) (options : Options)
    (contents : List Char) (hr : fs.read p = some contents)
    (hc : has_classes contents = true) :
    (options.writeMode = WriteMode.dryRun →
      run_on_file_paths fs p options = [Effect.fsRead p, print_file_name p options])
    ∧ (options.writeMode = WriteMode.toFile → fs.writeOk p = true →
      run_on_file_paths fs p options =
        [Effect.fsRead p, Effect.fsWrite p (sort_file_contents contents options),
         print_file_name p options])
    ∧ (options.writeMode = WriteMode.toConsole →
      run_on_file_paths fs p options =
        [Effect.fsRead p, print_file_contents (sort_file_contents contents options)]
      ∧ ∀ q cc, Effect.fsWrite q cc ∉ run_on_file_paths fs p options) := by
  refine ⟨?_, ?_, ?_⟩
  · intro hm
    simp [run_on_file_paths, hr, hc, hm]
  · intro hm hw
    simp [run_on_file_paths, hr, hc, hm, write_to_file, hw]
  · intro hm
    constructor
    · simp [run_on_file_paths, hr, hc, hm]
    · intro q cc
      simp [run_on_file_paths, hr, hc, hm, print_file_contents]

/-- C2 witness: all three modes exercised at a concrete file. -/
theorem claim_C2_witness :
    (run_on_file_paths ⟨fun _ => some ("class=\"b a\"".toList), fun _ => true⟩ ["a.html"]
        ⟨WriteMode.dryRun, true, [["a.html"]], []⟩ =
      [Effect.fsRead ["a.html"],
       print_file_name ["a.html"] ⟨WriteMode.dryRun, true, [["a.html"]], []⟩])
    ∧ (run_on_file_paths ⟨fun _ => some ("class=\"b a\"".toList), fun _ => true⟩ ["a.html"]
        ⟨WriteMode.toFile, true, [["a.html"]], []⟩ =
      [Effect.fsRead ["a.html"],
       Effect.fsWrite ["a.html"]
         (sort_file_contents ("class=\"b a\"".toList) ⟨WriteMode.toFile, true, [["a.html"]], []⟩),
       print_file_name ["a.html"] ⟨WriteMode.toFile, true, [["a.html"]], []⟩])
    ∧ (run_on_file_paths ⟨fun _ => some ("class=\"b a\"".toList), fun _ => true⟩ ["a.html"]
        ⟨WriteMode.toConsole, true, [["a.html"]], []⟩ =
      [Effect.fsRead ["a.html"],
       print_file_contents
         (sort_file_contents ("class=\"b a\"".toList)
           ⟨WriteMode.toConsole, true, [["a.html"]], []⟩)]) :=
  ⟨(claim_C2_write_mode_dispatch _ _ _ _ rfl (by decide)).1 rfl,
   (claim_C2_write_mode_dispatch _ _ _ _ rfl (by decide)).2.1 rfl rfl,
   ((claim_C2_write_mode_dispatch _ _ _ _ rfl (by decide)).2.2 rfl).1⟩

/-- C3 (counterexample): the claim says every failed read or write is
reported for that file.  At this concrete input the read fails
(`read` returns `none`), yet the per-file task produces no stdout or stderr
line at all — the failure is silently swallowed
(`Err(_error) => ()` in `run_on_file_paths`). -/
theorem claim_C3_read_error_unreported :
    ((⟨fun _ => none, fun _ => true⟩ : Fs).read ["a.html"] = none)
    ∧ (run_on_file_paths ⟨fun _ => none, fun _ => true⟩ ["a.html"]
        ⟨WriteMode.toFile, true, [["a.html"]], []⟩ = [Effect.fsRead ["a.html"]])
    ∧ ((run_on_file_paths ⟨fun _ => none, fun _ => true⟩ ["a.html"]
        ⟨WriteMode.toFile, true, [["a.html"]], []⟩).filter isReport = []) := by
  refine ⟨rfl, rfl, rfl⟩

/-- C3 (amended): a failed write is reported on stderr for that file; a failed
read is silently skipped with no report; in both cases the per-file task
completes and executing the batch still reads every remaining file, so no
I/O failure aborts the run. -/
theorem claim_C3_io_failures_nonfatal (fs : Fs) (p : List String) (options : Options) :
    (fs.read p = none → run_on_file_paths fs p options = [Effect.fsRead p])
    ∧ (∀ contents, fs.read p = some contents → has_classes contents = true →
        options.writeMode = WriteMode.toFile → fs.writeOk p = false →
        (run_on_file_paths fs p options).filter isReport =
          [Effect.eprintLn "\nError",
           Effect.eprintLn ("Unable to to save file: " ++
             get_file_name p options.startingPath)])
    ∧ (∀ paths, p ∈ paths → Effect.fsRead p ∈ run_all fs paths options) := by
  refine ⟨?_, ?_, ?_⟩
  · intro hr
    simp [run_on_file_paths, hr]
  · intro contents hr hc hm hw
    simp [run_on_file_paths, hr, hc, hm, write_to_file, hw, isReport, List.filter]
  · intro paths hp
    exact fsRead_mem_run_all fs paths options p hp

/-- C3 witness: a concrete failing read (silently skipped), a concrete failing
write (reported on stderr), and the batch still reading a path that follows a
failing file. -/
theorem claim_C3_witness :
    (run_on_file_paths ⟨fun _ => none, fun _ => true⟩ ["a.html"]
        ⟨WriteMode.toFile, true, [["a.html"]], []⟩ = [Effect.fsRead ["a.html"]])
    ∧ ((run_on_file_paths ⟨fun _ => some ("class=\"b a\"".toList), fun _ => false⟩ ["a.html"]
        ⟨WriteMode.toFile, true, [["a.html"]], []⟩).filter isReport =
      [Effect.eprintLn "\nError",
       Effect.eprintLn ("Unable to to save file: " ++
         get_file_name ["a.html"]
           (⟨WriteMode.toFile, true, [["a.html"]], []⟩ : Options).startingPath)])
    ∧ (Effect.fsRead ["b.html"] ∈
        run_all ⟨fun _ => none, fun _ => true⟩ [["a.html"], ["b.html"]]
          ⟨WriteMode.toFile, true, [["a.html"], ["b.html"]], []⟩) :=
  ⟨(claim_C3_io_failures_nonfatal _ _ _).1 rfl,
   (claim_C3_io_failures_nonfatal _ _ _).2.1 _ rfl (by decide) rfl rfl,
   (claim_C3_io_failures_nonfatal _ _ _).2.2 [["a.html"], ["b.html"]] (by decide)⟩

/-- C4: a readable file whose content has no class-bearing span has
`has_classes = false`, and the per-file task performs no write, no dry-run
listing and no console print — its only effect is the read attempt, so the
file on disk is untouched. -/
theorem claim_C4_no_spans_no_effects (fs : Fs) (p : List String) (options : Options)
    (contents : List Char) (hr : fs.read p = some contents)
    (hn : find_spans contents = []) :
    has_classes contents = false ∧ run_on_file_paths fs p options = [Effect.fsRead p] := by
  have hcf : has_classes contents = false := by
    cases hx : has_classes contents
    · rfl
    · exact absurd hn ((has_classes_iff_find_spans contents).mp hx)
  refine ⟨hcf, ?_⟩
  simp [run_on_file_paths, hr, hcf]

/-- C4 witness: a concrete file with no class attribute. -/
theorem claim_C4_witness :
    has_classes ("hello world".toList) = false
    ∧ run_on_file_paths ⟨fun _ => some ("hello world".toList), fun _ => true⟩ ["a.html"]
        ⟨WriteMode.toFile, true, [["a.html"]], []⟩ = [Effect.fsRead ["a.html"]] :=
  claim_C4_no_spans_no_effects _ _ _ _ rfl (by decide)

/-- C5: the whole sorting pipeline is idempotent — re-running
`sort_file_contents` on its own output, with the options held constant,
returns a bit-identical content string. -/
theorem claim_C5_sort_idempotent (contents : List Char) (options : Options) :
    sort_file_contents (sort_file_contents contents options) options
      = sort_file_contents contents options := by
  rw [show sort_file_contents (sort_file_contents contents options) options
      = render ((scan (sort_file_contents contents options)).map
          (sortChunk options.removeDuplicates)) from rfl]
  rw [scan_sort_file_contents, map_sortChunk_idem]
  rfl

/-- C6: `has_classes` returns true exactly when `find_spans` yields at least
one span. -/
theorem claim_C6_has_classes_iff (content : List Char) :
    has_classes content = true ↔ find_spans content ≠ [] :=
  has_classes_iff_find_spans content

/-- C7: the core consumes `allow_duplicates` as
`remove_duplicates = !allow_duplicates`; with `remove_duplicates = true` the
sorter's output keeps the first occurrence of every raw token and drops the
later equal ones, leaving the kept order untouched (it is a duplicate-free
subsequence of the sorted sequence with the same members); with it `false`
every duplicate is retained (the output is a permutation of the input). -/
theorem claim_C7_duplicate_handling (m : ArgMatches) (resolved : List (List String))
    (ts : List (List Char)) :
    ((Options.new_from_matches m resolved).removeDuplicates = !m.allow_duplicates)
    ∧ (applySorter true ts = dedupKeep [] (applySorter false ts))
    ∧ (∀ x xs, dedupKeep [] (x :: xs) = x :: dedupKeep [x] xs)
    ∧ (applySorter true ts).Nodup
    ∧ List.Sublist (applySorter true ts) (applySorter false ts)
    ∧ (∀ x, x ∈ applySorter true ts ↔ x ∈ ts)
    ∧ List.Perm (applySorter false ts) ts := by
  refine ⟨rfl, rfl, ?_, ?_, ?_, ?_, ?_⟩
  · intro x xs
    rw [dedupKeep, if_neg (List.not_mem_nil x)]
  · exact dedupKeep_nodup [] (sortTokens ts)
  · exact dedupKeep_sublist [] (sortTokens ts)
  · intro x
    constructor
    · intro h
      exact mem_sortTokens.mp (mem_dedupKeep_imp h)
    · intro h
      exact mem_dedupKeep (mem_sortTokens.mpr h) (List.not_mem_nil x)
  · exact sortTokens_perm ts

/-- C8: the bytes outside the matched spans' inner texts — the text chunks
and the span delimiters, concatenated in file order — are identical before
and after sorting. -/
theorem claim_C8_outside_bytes_preserved (contents : List Char) (options : Options) :
    outsideBytes (scan (sort_file_contents contents options)) = outsideBytes (scan contents) := by
  rw [scan_sort_file_contents, outsideBytes_map]

/-- C9: in write mode, a readable file whose content has classes is written
back unconditionally — the write effect happens with no comparison of the
sorted content against the original. -/
theorem claim_C9_unconditional_write (fs : Fs) (p : List String) (options : Options)
    (contents : List Char) (hr : fs.read p = some contents)
    (hc : has_classes contents = true) (hm : options.writeMode = WriteMode.toFile)
    (hw : fs.writeOk p = true) :
    Effect.fsWrite p (sort_file_contents contents options) ∈ run_on_file_paths fs p options := by
  simp [run_on_file_paths, hr, hc, hm, write_to_file, hw]

/-- C9 witness: a file whose sorted content is byte-identical to the original
is still written back. -/
theorem claim_C9_witness :
    (sort_file_contents ("<p class=\"flex p-4\"></p>".toList)
        ⟨WriteMode.toFile, true, [["a.html"]], []⟩ = "<p class=\"flex p-4\"></p>".toList)
    ∧ Effect.fsWrite ["a.html"] ("<p class=\"flex p-4\"></p>".toList) ∈
        run_on_file_paths ⟨fun _ => some ("<p class=\"flex p-4\"></p>".toList), fun _ => true⟩
          ["a.html"] ⟨WriteMode.toFile, true, [["a.html"]], []⟩ := by
  have hs : sort_file_contents ("<p class=\"flex p-4\"></p>".toList)
      ⟨WriteMode.toFile, true, [["a.html"]], []⟩ = "<p class=\"flex p-4\"></p>".toList := by
    decide
  exact ⟨hs, hs ▸ claim_C9_unconditional_write _ _ _ _ rfl (by decide) rfl rfl⟩

/-- C10: `get_file_name` is total — when the starting directory is a parent of
the path the parent is stripped, and otherwise the full path is displayed
unchanged rather than failing. -/
theorem claim_C10_get_file_name_total (file_path dir : List String) :
    (isParentOf dir file_path = true →
      get_file_name file_path dir = pathDisplay (file_path.drop dir.length))
    ∧ (isParentOf dir file_path = false →
      get_file_name file_path dir = pathDisplay file_path) := by
  constructor
  · intro h
    rw [get_file_name, stripParentDir, if_pos h]
    rfl
  · intro h
    rw [get_file_name, stripParentDir, if_neg (by simp [h])]
    rfl

/-- C10 witness: both branches at concrete paths. -/
theorem claim_C10_witness :
    get_file_name ["home", "u", "f.txt"] ["home"] = "u/f.txt"
    ∧ get_file_name ["a", "b"] ["c"] = "a/b" :=
  ⟨((claim_C10_get_file_name_total ["home", "u", "f.txt"] ["home"]).1 (by decide)).trans
      (by decide),
   ((claim_C10_get_file_name_total ["a", "b"] ["c"]).2 (by decide)).trans (by decide)⟩
